import Mathlib

/-!
Verification development for the `page_summarizer` repository.

The development shallowly embeds the two core components of the program:

* `PageSummarizer._clean_text` (src/agent.py, lines 178-205): a deterministic
  text-normalization pipeline built from five `re.sub`/`strip` steps;
* `PageSummarizer._extract_text` (src/agent.py, lines 95-176): noise-element
  removal, main-content selection and two-pass text harvesting over a parsed
  HTML node tree;
* `OpenAIModule.get_summary` (src/openai_module.py, lines 72-145): input
  validation, head+tail truncation, and a bounded retry loop around an
  abstract provider call;
* `OpenAIModule.validate_summary` (src/openai_module.py, lines 147-173): the
  advisory summary-quality check;
* `PageSummarizer.summarize_page` (src/agent.py, lines 207-243): the
  extraction -> summarization -> validation sequencing.

Strings are modelled as Lean `String`s (lists of Unicode scalar values), which
matches Python `str` semantics for length, slicing and equality.  The HTML
parser (BeautifulSoup) is external to the repository; trees it produces are
modelled by the `Node`/`NodeList` inductives below, and document order is
preorder traversal, as in BeautifulSoup's `.descendants`.
-/

/-! ## Character classes used by `_clean_text` (src/agent.py 178-205) -/

/-- Python's `\s` character class under `re.UNICODE` (and the character set
stripped by `str.strip()`): ASCII whitespace, the C0 information separators,
NEL, NBSP, and the Unicode space separators. -/
def isWsChar (c : Char) : Bool :=
  c = ' ' || c = '\t' || c = '\n' || c = '\r' || c = '\x0b' || c = '\x0c' ||
  c = '\x1c' || c = '\x1d' || c = '\x1e' || c = '\x1f' || c = '\x85' || c = '\xa0' ||
  c = '\u1680' || ('\u2000' ≤ c && c ≤ '\u200a') || c = '\u2028' || c = '\u2029' ||
  c = '\u202f' || c = '\u205f' || c = '\u3000'

/-- The ASCII fragment `[A-Za-z0-9_]` of Python's `\w` character class.
Python's `re.UNICODE` classifies all Unicode word characters (e.g. Cyrillic
letters), a table too large to embed; this executable instance is used only
to evaluate concrete ASCII inputs.  Every universal statement that depends
on the word-character class is proved uniformly in an arbitrary classifier
`w : Char → Bool` (see `isAllowedCharW` and `clean_charsW_idem_of_kept`), so
it covers the program's full Unicode classifier by instantiation. -/
def isWordChar (c : Char) : Bool :=
  ('a' ≤ c && c ≤ 'z') || ('A' ≤ c && c ≤ 'Z') || ('0' ≤ c && c ≤ '9') || c = '_'

/-- The punctuation characters kept by the deletion step of `_clean_text`
(src/agent.py line 197): the literal characters of the regex class
`[^\w\s.,!?;:()\-—–""«»\'\"]` (the straight double quote occurs twice in the
source class; it is listed once here). -/
def allowedPunct : List Char :=
  ['.', ',', '!', '?', ';', ':', '(', ')', '-', '—', '–', '"', '«', '»', '\'']

/-- A character survives the deletion step of `_clean_text` iff it is a word
character, whitespace, or one of the allowed punctuation characters. -/
def isAllowedChar (c : Char) : Bool :=
  isWordChar c || isWsChar c || allowedPunct.contains c

/-- The deletion-step keep-predicate with the word-character classifier `w`
abstracted: a character survives iff it is a word character according to
`w`, whitespace, or allowed punctuation.  `isAllowedChar` is definitionally
the instance at the ASCII classifier `isWordChar`; the program's own
predicate is the instance at Python's Unicode `\w`. -/
def isAllowedCharW (w : Char → Bool) (c : Char) : Bool :=
  w c || isWsChar c || allowedPunct.contains c

/-! ## The normalization pipeline `_clean_text` -/

/-- `re.sub(r'\s+', ' ', text)` (src/agent.py lines 189 and 200): replace each
maximal run of whitespace by a single space.  `prev` records whether the
previous character belonged to a whitespace run. -/
def collapseWsAux (prev : Bool) : List Char → List Char
  | [] => []
  | c :: cs =>
    if isWsChar c then
      if prev then collapseWsAux true cs else ' ' :: collapseWsAux true cs
    else c :: collapseWsAux false cs

/-- Replace each maximal whitespace run by one space (`re.sub(r'\s+', ' ', ·)`). -/
def collapseWs (l : List Char) : List Char := collapseWsAux false l

/-- `re.sub(r'[t]{2,}', t, text)` (src/agent.py lines 192-194): replace each
maximal run of the character `t` by a single `t`.  Runs of length one are left
unchanged, so the net effect is that every maximal run becomes one `t`. -/
def collapseRunAux (t : Char) (prev : Bool) : List Char → List Char
  | [] => []
  | c :: cs =>
    if c = t then
      if prev then collapseRunAux t true cs else t :: collapseRunAux t true cs
    else c :: collapseRunAux t false cs

/-- Replace each maximal run of `t` by a single `t`. -/
def collapseRun (t : Char) (l : List Char) : List Char := collapseRunAux t false l

/-- Python `str.strip()`: remove leading and trailing whitespace. -/
def pyStrip (l : List Char) : List Char :=
  ((l.dropWhile isWsChar).reverse.dropWhile isWsChar).reverse

/-- `PageSummarizer._clean_text` (src/agent.py lines 178-205) on character
lists, with the source's exact step order: collapse whitespace, collapse runs
of `.`, `!`, `?` (in that order), delete disallowed characters, collapse
whitespace again, strip. -/
def clean_chars (l : List Char) : List Char :=
  pyStrip (collapseWs (List.filter isAllowedChar
    (collapseRun '?' (collapseRun '!' (collapseRun '.' (collapseWs l))))))

/-- `PageSummarizer._clean_text` (src/agent.py lines 178-205). -/
def clean_text (s : String) : String := String.mk (clean_chars s.data)

/-- `_clean_text` with the deletion step's word-character classifier `w`
abstracted; `clean_chars` is definitionally `clean_charsW isWordChar`, and
the program itself is the instance at Python's Unicode `\w`. -/
def clean_charsW (w : Char → Bool) (l : List Char) : List Char :=
  pyStrip (collapseWs (List.filter (isAllowedCharW w)
    (collapseRun '?' (collapseRun '!' (collapseRun '.' (collapseWs l))))))

/-- String-level form of `clean_charsW`. -/
def clean_textW (w : Char → Bool) (s : String) : String :=
  String.mk (clean_charsW w s.data)

/-! ## Adjacent-pair predicates for stating the normalization invariants -/

/-- `pairwiseOK f l` holds when every two adjacent characters `a, b` of `l`
satisfy `f a b`. -/
def pairwiseOK (f : Char → Char → Bool) : List Char → Bool
  | a :: b :: r => f a b && pairwiseOK f (b :: r)
  | _ => true

/-- No two adjacent characters of `l` are both whitespace. -/
def noAdjacentWs (l : List Char) : Bool :=
  pairwiseOK (fun a b => !(isWsChar a && isWsChar b)) l

/-- No two adjacent characters of `l` both equal `t` (no run of `t` of length
two or more). -/
def noRunOf (t : Char) (l : List Char) : Bool :=
  pairwiseOK (fun a b => !(a = t && b = t)) l

/-- Every whitespace character of `l` is a plain space. -/
def wsIsSpace (l : List Char) : Bool :=
  l.all (fun c => !isWsChar c || c = ' ')

/-- Head compatibility: `f` holds between `a` and the head of `l`, if any. -/
def headOK (f : Char → Char → Bool) (a : Char) : List Char → Bool
  | [] => true
  | b :: _ => f a b

theorem pairwiseOK_cons (f : Char → Char → Bool) (a : Char) (l : List Char) :
    pairwiseOK f (a :: l) = (headOK f a l && pairwiseOK f l) := by
  cases l <;> simp [pairwiseOK, headOK]

theorem pairwiseOK_tail {f : Char → Char → Bool} {a : Char} {l : List Char}
    (h : pairwiseOK f (a :: l) = true) : pairwiseOK f l = true := by
  rw [pairwiseOK_cons, Bool.and_eq_true] at h
  exact h.2

theorem pairwiseOK_mono {f g : Char → Char → Bool}
    (hfg : ∀ a b, f a b = true → g a b = true) :
    ∀ {l : List Char}, pairwiseOK f l = true → pairwiseOK g l = true
  | [], _ => rfl
  | [_], _ => rfl
  | a :: b :: r, h => by
    rw [pairwiseOK, Bool.and_eq_true] at h ⊢
    exact ⟨hfg a b h.1, pairwiseOK_mono hfg h.2⟩

theorem pairwiseOK_append_left {f : Char → Char → Bool} :
    ∀ {l r : List Char}, pairwiseOK f (l ++ r) = true → pairwiseOK f l = true
  | [], _, _ => rfl
  | [_], _, _ => rfl
  | a :: b :: m, r, h => by
    rw [List.cons_append, List.cons_append] at h
    rw [pairwiseOK, Bool.and_eq_true] at h ⊢
    exact ⟨h.1, pairwiseOK_append_left (l := b :: m) (r := r) h.2⟩

theorem pairwiseOK_append_right {f : Char → Char → Bool} :
    ∀ {l r : List Char}, pairwiseOK f (l ++ r) = true → pairwiseOK f r = true
  | [], _, h => h
  | _ :: m, r, h => pairwiseOK_append_right (pairwiseOK_tail (l := m ++ r) h)

theorem pairwiseOK_infix {f : Char → Char → Bool} {s m t : List Char}
    (h : pairwiseOK f (s ++ m ++ t) = true) : pairwiseOK f m = true :=
  pairwiseOK_append_left (pairwiseOK_append_right (l := s) (by simpa using h))

/-! ### Invariants established and preserved by the collapsing passes -/

theorem collapseWsAux_true_head :
    ∀ {l : List Char} {b : Char}, (collapseWsAux true l).head? = some b → isWsChar b = false
  | c :: cs, b, h => by
    by_cases hc : isWsChar c = true
    · rw [collapseWsAux, if_pos hc, if_pos rfl] at h
      exact collapseWsAux_true_head h
    · rw [collapseWsAux, if_neg hc] at h
      simp only [List.head?_cons, Option.some.injEq] at h
      subst h
      simpa using hc

theorem collapseWsAux_false_head (l : List Char) :
    (collapseWsAux false l).head? = l.head?.map (fun c => if isWsChar c then ' ' else c) := by
  cases l with
  | nil => rfl
  | cons c cs =>
    by_cases hc : isWsChar c = true
    · rw [collapseWsAux, if_pos hc, if_neg (by simp)]
      simp [hc]
    · rw [collapseWsAux, if_neg hc]
      simp [hc]

theorem collapseWsAux_wsIsSpace : ∀ (prev : Bool) (l : List Char),
    wsIsSpace (collapseWsAux prev l) = true
  | _, [] => rfl
  | prev, c :: cs => by
    by_cases hc : isWsChar c = true
    · rw [collapseWsAux, if_pos hc]
      cases prev with
      | true => simpa using collapseWsAux_wsIsSpace true cs
      | false =>
        rw [if_neg (by simp)]
        have := collapseWsAux_wsIsSpace true cs
        simp only [wsIsSpace, List.all_cons, Bool.and_eq_true] at this ⊢
        exact ⟨by simp, this⟩
    · rw [collapseWsAux, if_neg hc]
      have := collapseWsAux_wsIsSpace false cs
      simp only [wsIsSpace, List.all_cons, Bool.and_eq_true] at this ⊢
      exact ⟨by simp [hc], this⟩

theorem collapseWsAux_noAdjacentWs : ∀ (prev : Bool) (l : List Char),
    noAdjacentWs (collapseWsAux prev l) = true
  | _, [] => rfl
  | prev, c :: cs => by
    by_cases hc : isWsChar c = true
    · rw [collapseWsAux, if_pos hc]
      cases prev with
      | true => exact collapseWsAux_noAdjacentWs true cs
      | false =>
        rw [if_neg (by simp)]
        rw [noAdjacentWs, pairwiseOK_cons, Bool.and_eq_true]
        refine ⟨?_, collapseWsAux_noAdjacentWs true cs⟩
        cases hx : (collapseWsAux true cs) with
        | nil => rfl
        | cons x xs =>
          have hxw : isWsChar x = false := collapseWsAux_true_head (by rw [hx]; rfl)
          simp [headOK, hxw]
    · rw [collapseWsAux, if_neg hc]
      rw [noAdjacentWs, pairwiseOK_cons, Bool.and_eq_true]
      refine ⟨?_, collapseWsAux_noAdjacentWs false cs⟩
      cases hx : (collapseWsAux false cs) with
      | nil => rfl
      | cons x xs => simp [headOK, hc]

theorem collapseWsAux_all {p : Char → Bool} (hsp : p ' ' = true) :
    ∀ (prev : Bool) {l : List Char}, l.all p = true → (collapseWsAux prev l).all p = true
  | _, [], _ => rfl
  | prev, c :: cs, h => by
    rw [List.all_cons, Bool.and_eq_true] at h
    by_cases hc : isWsChar c = true
    · rw [collapseWsAux, if_pos hc]
      cases prev with
      | true => exact collapseWsAux_all hsp true h.2
      | false =>
        rw [if_neg (by simp)]
        simp only [List.all_cons, Bool.and_eq_true]
        exact ⟨hsp, collapseWsAux_all hsp true h.2⟩
    · rw [collapseWsAux, if_neg hc]
      simp only [List.all_cons, Bool.and_eq_true]
      exact ⟨h.1, collapseWsAux_all hsp false h.2⟩

theorem collapseRunAux_true_head {t : Char} :
    ∀ {l : List Char} {b : Char}, (collapseRunAux t true l).head? = some b → b ≠ t
  | c :: cs, b, h => by
    by_cases hc : c = t
    · rw [collapseRunAux, if_pos hc, if_pos rfl] at h
      exact collapseRunAux_true_head h
    · rw [collapseRunAux, if_neg hc] at h
      simp only [List.head?_cons, Option.some.injEq] at h
      subst h
      exact hc

theorem collapseRunAux_false_head (t : Char) (l : List Char) :
    (collapseRunAux t false l).head? = l.head? := by
  cases l with
  | nil => rfl
  | cons c cs =>
    by_cases hc : c = t
    · rw [collapseRunAux, if_pos hc, if_neg (by simp)]
      simp [hc]
    · rw [collapseRunAux, if_neg hc]
      simp

theorem collapseRunAux_noRunOf (t : Char) : ∀ (prev : Bool) (l : List Char),
    noRunOf t (collapseRunAux t prev l) = true
  | _, [] => rfl
  | prev, c :: cs => by
    by_cases hc : c = t
    · rw [collapseRunAux, if_pos hc]
      cases prev with
      | true => exact collapseRunAux_noRunOf t true cs
      | false =>
        rw [if_neg (by simp)]
        rw [noRunOf, pairwiseOK_cons, Bool.and_eq_true]
        refine ⟨?_, collapseRunAux_noRunOf t true cs⟩
        cases hx : (collapseRunAux t true cs) with
        | nil => rfl
        | cons x xs =>
          have hxt : x ≠ t := collapseRunAux_true_head (by rw [hx]; rfl)
          simp [headOK, hxt]
    · rw [collapseRunAux, if_neg hc]
      rw [noRunOf, pairwiseOK_cons, Bool.and_eq_true]
      refine ⟨?_, collapseRunAux_noRunOf t false cs⟩
      cases hx : (collapseRunAux t false cs) with
      | nil => rfl
      | cons x xs => simp [headOK, hc]

theorem collapseRunAux_preserves_noRunOf {u t : Char} (hut : u ≠ t) :
    ∀ (prev : Bool) {l : List Char}, noRunOf u l = true →
      noRunOf u (collapseRunAux t prev l) = true
  | _, [], _ => rfl
  | prev, c :: cs, h => by
    have htail : noRunOf u cs = true := pairwiseOK_tail h
    by_cases hc : c = t
    · rw [collapseRunAux, if_pos hc]
      cases prev with
      | true => exact collapseRunAux_preserves_noRunOf hut true htail
      | false =>
        rw [if_neg (by simp)]
        rw [noRunOf, pairwiseOK_cons, Bool.and_eq_true]
        refine ⟨?_, collapseRunAux_preserves_noRunOf hut true htail⟩
        cases collapseRunAux t true cs with
        | nil => rfl
        | cons x xs =>
          simp only [headOK, Bool.not_eq_true']
          simp only [Bool.and_eq_false_iff, decide_eq_false_iff_not]
          exact Or.inl (fun ht => hut ht.symm)
    · rw [collapseRunAux, if_neg hc]
      rw [noRunOf, pairwiseOK_cons, Bool.and_eq_true]
      refine ⟨?_, collapseRunAux_preserves_noRunOf hut false htail⟩
      cases hx : (collapseRunAux t false cs) with
      | nil => rfl
      | cons x xs =>
        have : cs.head? = some x := by rw [← collapseRunAux_false_head t cs, hx]; rfl
        rw [noRunOf, pairwiseOK_cons, Bool.and_eq_true] at h
        cases cs with
        | nil => simp at this
        | cons d ds =>
          simp only [List.head?_cons, Option.some.injEq] at this
          subst this
          simpa [headOK] using h.1

theorem collapseWsAux_preserves_noRunOf {t : Char} (ht : isWsChar t = false) :
    ∀ (prev : Bool) {l : List Char}, noRunOf t l = true →
      noRunOf t (collapseWsAux prev l) = true
  | _, [], _ => rfl
  | prev, c :: cs, h => by
    have htail : noRunOf t cs = true := pairwiseOK_tail h
    have hsp : ¬(' ' = t) := fun he => by rw [← he] at ht; exact absurd ht (by decide)
    by_cases hc : isWsChar c = true
    · rw [collapseWsAux, if_pos hc]
      cases prev with
      | true => exact collapseWsAux_preserves_noRunOf ht true htail
      | false =>
        rw [if_neg (by simp)]
        rw [noRunOf, pairwiseOK_cons, Bool.and_eq_true]
        refine ⟨?_, collapseWsAux_preserves_noRunOf ht true htail⟩
        cases collapseWsAux true cs with
        | nil => rfl
        | cons x xs =>
          simp only [headOK, Bool.not_eq_true', Bool.and_eq_false_iff, decide_eq_false_iff_not]
          exact Or.inl hsp
    · rw [collapseWsAux, if_neg hc]
      rw [noRunOf, pairwiseOK_cons, Bool.and_eq_true]
      refine ⟨?_, collapseWsAux_preserves_noRunOf ht false htail⟩
      by_cases hct : c = t
      · cases hx : (collapseWsAux false cs) with
        | nil => rfl
        | cons x xs =>
          have hhd := collapseWsAux_false_head cs
          rw [hx] at hhd
          cases cs with
          | nil => simp at hhd
          | cons d ds =>
            simp only [List.head?_cons, Option.map_some] at hhd
            have hxd : x = if isWsChar d then ' ' else d := by
              simpa using hhd
            by_cases hd : isWsChar d = true
            · rw [hd] at hxd
              simp only [if_pos] at hxd
              subst hxd
              simp only [headOK, Bool.not_eq_true', Bool.and_eq_false_iff,
                decide_eq_false_iff_not]
              exact Or.inr hsp
            · rw [if_neg hd] at hxd
              subst hxd
              rw [noRunOf, pairwiseOK_cons, Bool.and_eq_true] at h
              simpa [headOK] using h.1
      · cases collapseWsAux false cs with
        | nil => rfl
        | cons x xs =>
          simp only [headOK, Bool.not_eq_true', Bool.and_eq_false_iff, decide_eq_false_iff_not]
          exact Or.inl hct

theorem collapseRunAux_all {p : Char → Bool} {t : Char} (hpt : p t = true) :
    ∀ (prev : Bool) {l : List Char}, l.all p = true → (collapseRunAux t prev l).all p = true
  | _, [], _ => rfl
  | prev, c :: cs, h => by
    rw [List.all_cons, Bool.and_eq_true] at h
    by_cases hc : c = t
    · rw [collapseRunAux, if_pos hc]
      cases prev with
      | true => exact collapseRunAux_all hpt true h.2
      | false =>
        rw [if_neg (by simp)]
        simp only [List.all_cons, Bool.and_eq_true]
        exact ⟨hpt, collapseRunAux_all hpt true h.2⟩
    · rw [collapseRunAux, if_neg hc]
      simp only [List.all_cons, Bool.and_eq_true]
      exact ⟨h.1, collapseRunAux_all hpt false h.2⟩

/-! ### Identity of the passes on already-normalized text -/

theorem collapseWsAux_true_eq_false {l : List Char}
    (h : ∀ b, l.head? = some b → isWsChar b = false) :
    collapseWsAux true l = collapseWsAux false l := by
  cases l with
  | nil => rfl
  | cons c cs =>
    have hc : isWsChar c = false := h c rfl
    rw [collapseWsAux, collapseWsAux, if_neg (by simp [hc]), if_neg (by simp [hc])]

theorem collapseWs_eq_self : ∀ {l : List Char},
    wsIsSpace l = true → noAdjacentWs l = true → collapseWsAux false l = l
  | [], _, _ => rfl
  | c :: cs, hws, hadj => by
    have hws' : wsIsSpace cs = true := by
      rw [wsIsSpace, List.all_cons, Bool.and_eq_true] at hws
      exact hws.2
    have hadj' : noAdjacentWs cs = true := pairwiseOK_tail hadj
    by_cases hc : isWsChar c = true
    · have hc' : c = ' ' := by
        rw [wsIsSpace, List.all_cons, Bool.and_eq_true] at hws
        have h1 := hws.1
        rw [Bool.or_eq_true, Bool.not_eq_true'] at h1
        rcases h1 with h1 | h1
        · rw [hc] at h1; exact absurd h1 (by simp)
        · exact of_decide_eq_true h1
      have hhd : ∀ b, cs.head? = some b → isWsChar b = false := by
        intro b hb
        rw [noAdjacentWs, pairwiseOK_cons, Bool.and_eq_true] at hadj
        cases cs with
        | nil => simp at hb
        | cons d ds =>
          simp only [List.head?_cons, Option.some.injEq] at hb
          subst hb
          have h1 := hadj.1
          simpa [headOK, hc] using h1
      rw [collapseWsAux, if_pos hc, if_neg (by simp),
        collapseWsAux_true_eq_false hhd, collapseWs_eq_self hws' hadj', hc']
    · rw [collapseWsAux, if_neg hc, collapseWs_eq_self hws' hadj']

theorem collapseRunAux_true_eq_false {t : Char} {l : List Char}
    (h : ∀ b, l.head? = some b → b ≠ t) :
    collapseRunAux t true l = collapseRunAux t false l := by
  cases l with
  | nil => rfl
  | cons c cs =>
    have hc : c ≠ t := h c rfl
    rw [collapseRunAux, collapseRunAux, if_neg hc, if_neg hc]

theorem collapseRun_eq_self {t : Char} : ∀ {l : List Char},
    noRunOf t l = true → collapseRunAux t false l = l
  | [], _ => rfl
  | c :: cs, h => by
    have htail : noRunOf t cs = true := pairwiseOK_tail h
    by_cases hc : c = t
    · have hhd : ∀ b, cs.head? = some b → b ≠ t := by
        intro b hb hbt
        rw [noRunOf, pairwiseOK_cons, Bool.and_eq_true] at h
        cases cs with
        | nil => simp at hb
        | cons d ds =>
          simp only [List.head?_cons, Option.some.injEq] at hb
          subst hb
          have h1 := h.1
          rw [headOK] at h1
          simp [hc, hbt] at h1
      rw [collapseRunAux, if_pos hc, if_neg (by simp),
        collapseRunAux_true_eq_false hhd, collapseRun_eq_self htail, hc]
    · rw [collapseRunAux, if_neg hc, collapseRun_eq_self htail]

/-! ### Properties of `pyStrip` -/

theorem head_dropWhile_not {p : Char → Bool} :
    ∀ {l : List Char} {b : Char}, (l.dropWhile p).head? = some b → p b = false
  | c :: cs, b, h => by
    by_cases hc : p c = true
    · rw [List.dropWhile_cons, if_pos hc] at h
      exact head_dropWhile_not h
    · rw [List.dropWhile_cons, if_neg hc] at h
      simp only [List.head?_cons, Option.some.injEq] at h
      subst h
      simpa using hc

theorem dropWhile_eq_self_of_head {p : Char → Bool} {l : List Char}
    (h : ∀ b, l.head? = some b → p b = false) : l.dropWhile p = l := by
  cases l with
  | nil => rfl
  | cons c cs =>
    rw [List.dropWhile_cons, if_neg (by simp [h c rfl])]

/-- `pyStrip l` is a contiguous segment of `l`. -/
theorem pyStrip_infix (l : List Char) :
    ∃ s t, l = s ++ pyStrip l ++ t := by
  refine ⟨l.takeWhile isWsChar, ((l.dropWhile isWsChar).reverse.takeWhile isWsChar).reverse, ?_⟩
  rw [pyStrip]
  conv_lhs => rw [← List.takeWhile_append_dropWhile isWsChar l]
  rw [List.append_assoc]
  congr 1
  conv_lhs => rw [← List.reverse_reverse (l.dropWhile isWsChar)]
  conv_lhs =>
    rw [← List.takeWhile_append_dropWhile isWsChar (l.dropWhile isWsChar).reverse]
  rw [List.reverse_append]

theorem pyStrip_pairwiseOK {f : Char → Char → Bool} {l : List Char}
    (h : pairwiseOK f l = true) : pairwiseOK f (pyStrip l) = true := by
  obtain ⟨s, t, hst⟩ := pyStrip_infix l
  rw [hst] at h
  exact pairwiseOK_infix h

theorem pyStrip_all {p : Char → Bool} {l : List Char}
    (h : l.all p = true) : (pyStrip l).all p = true := by
  obtain ⟨s, t, hst⟩ := pyStrip_infix l
  rw [hst] at h
  simp only [List.all_append, Bool.and_eq_true] at h
  exact h.1.2

theorem pyStrip_head {l : List Char} :
    ∀ {b : Char}, (pyStrip l).head? = some b → isWsChar b = false := by
  intro b h
  rw [pyStrip] at h
  set d := l.dropWhile isWsChar with hd
  set r := d.reverse.dropWhile isWsChar with hr
  have hpre : r.reverse ++ (d.reverse.takeWhile isWsChar).reverse = d := by
    conv_rhs => rw [← List.reverse_reverse d]
    conv_rhs => rw [← List.takeWhile_append_dropWhile isWsChar d.reverse]
    rw [List.reverse_append]
  cases hx : r.reverse with
  | nil => rw [hx] at h; simp at h
  | cons x xs =>
    rw [hx] at h
    simp only [List.head?_cons, Option.some.injEq] at h
    have hd' : d.head? = some x := by
      rw [← hpre, hx]
      rfl
    rw [← h]
    exact head_dropWhile_not hd'

theorem pyStrip_getLast {l : List Char} :
    ∀ {b : Char}, (pyStrip l).getLast? = some b → isWsChar b = false := by
  intro b h
  rw [pyStrip, List.getLast?_reverse] at h
  exact head_dropWhile_not h

theorem pyStrip_eq_self {l : List Char}
    (h1 : ∀ b, l.head? = some b → isWsChar b = false)
    (h2 : ∀ b, l.getLast? = some b → isWsChar b = false) : pyStrip l = l := by
  rw [pyStrip, dropWhile_eq_self_of_head h1]
  rw [dropWhile_eq_self_of_head (by intro b hb; exact h2 b (by rwa [List.head?_reverse] at hb))]
  exact List.reverse_reverse l

theorem pyStrip_idem (l : List Char) : pyStrip (pyStrip l) = pyStrip l :=
  pyStrip_eq_self (fun _ h => pyStrip_head h) (fun _ h => pyStrip_getLast h)

/-! ### Idempotence of `_clean_text` on disallowed-character-free input

The lemma below is proved uniformly in the word-character classifier `w`
used by the deletion step; it therefore applies to the program's Unicode
`\w` classifier just as to the executable ASCII instance `isWordChar`. -/

theorem isAllowedCharW_of_ws (w : Char → Bool) {c : Char} (h : isWsChar c = true) :
    isAllowedCharW w c = true := by
  rw [isAllowedCharW, h]
  simp

theorem isAllowedCharW_of_punct (w : Char → Bool) {c : Char}
    (h : allowedPunct.contains c = true) : isAllowedCharW w c = true := by
  rw [isAllowedCharW, h]
  simp

theorem clean_charsW_idem_of_kept (w : Char → Bool) {l : List Char}
    (hall : l.all (isAllowedCharW w) = true) :
    clean_charsW w (clean_charsW w l) = clean_charsW w l := by
  have hspace : isAllowedCharW w ' ' = true := isAllowedCharW_of_ws w (by decide)
  -- stage names for the first pass
  have hallw : (collapseWs l).all (isAllowedCharW w) = true :=
    collapseWsAux_all hspace false hall
  have halld : (collapseRun '.' (collapseWs l)).all (isAllowedCharW w) = true :=
    collapseRunAux_all (isAllowedCharW_of_punct w (by decide)) false hallw
  have hallb :
      (collapseRun '!' (collapseRun '.' (collapseWs l))).all (isAllowedCharW w) = true :=
    collapseRunAux_all (isAllowedCharW_of_punct w (by decide)) false halld
  have hallq :
      (collapseRun '?' (collapseRun '!' (collapseRun '.' (collapseWs l)))).all
        (isAllowedCharW w) = true :=
    collapseRunAux_all (isAllowedCharW_of_punct w (by decide)) false hallb
  have hfilter :
      List.filter (isAllowedCharW w)
          (collapseRun '?' (collapseRun '!' (collapseRun '.' (collapseWs l))))
        = collapseRun '?' (collapseRun '!' (collapseRun '.' (collapseWs l))) :=
    List.filter_eq_self.mpr (fun a ha => (List.all_eq_true.mp hallq) a ha)
  -- run-freedom after the three punctuation passes
  have hq_dot :
      noRunOf '.' (collapseRun '?' (collapseRun '!' (collapseRun '.' (collapseWs l)))) = true :=
    collapseRunAux_preserves_noRunOf (by decide) false
      (collapseRunAux_preserves_noRunOf (by decide) false
        (collapseRunAux_noRunOf '.' false (collapseWs l)))
  have hq_bang :
      noRunOf '!' (collapseRun '?' (collapseRun '!' (collapseRun '.' (collapseWs l)))) = true :=
    collapseRunAux_preserves_noRunOf (by decide) false
      (collapseRunAux_noRunOf '!' false (collapseRun '.' (collapseWs l)))
  have hq_qm :
      noRunOf '?' (collapseRun '?' (collapseRun '!' (collapseRun '.' (collapseWs l)))) = true :=
    collapseRunAux_noRunOf '?' false (collapseRun '!' (collapseRun '.' (collapseWs l)))
  -- the output of the first pass
  have hkey : clean_charsW w l =
      pyStrip (collapseWs (collapseRun '?' (collapseRun '!' (collapseRun '.' (collapseWs l))))) := by
    rw [clean_charsW, hfilter]
  -- invariants of the output
  have hws_o : wsIsSpace (clean_charsW w l) = true := by
    rw [hkey]
    exact pyStrip_all (collapseWsAux_wsIsSpace false _)
  have hadj_o : noAdjacentWs (clean_charsW w l) = true := by
    rw [hkey]
    exact pyStrip_pairwiseOK (collapseWsAux_noAdjacentWs false _)
  have hdot_o : noRunOf '.' (clean_charsW w l) = true := by
    rw [hkey]
    exact pyStrip_pairwiseOK (collapseWsAux_preserves_noRunOf (by decide) false hq_dot)
  have hbang_o : noRunOf '!' (clean_charsW w l) = true := by
    rw [hkey]
    exact pyStrip_pairwiseOK (collapseWsAux_preserves_noRunOf (by decide) false hq_bang)
  have hqm_o : noRunOf '?' (clean_charsW w l) = true := by
    rw [hkey]
    exact pyStrip_pairwiseOK (collapseWsAux_preserves_noRunOf (by decide) false hq_qm)
  have hall_o : (clean_charsW w l).all (isAllowedCharW w) = true := by
    rw [hkey]
    exact pyStrip_all (collapseWsAux_all hspace false hallq)
  have hhead_o : ∀ b, (clean_charsW w l).head? = some b → isWsChar b = false := by
    rw [hkey]
    exact fun b hb => pyStrip_head hb
  have hlast_o : ∀ b, (clean_charsW w l).getLast? = some b → isWsChar b = false := by
    rw [hkey]
    exact fun b hb => pyStrip_getLast hb
  -- the second pass is the identity, stage by stage
  have s1 : collapseWs (clean_charsW w l) = clean_charsW w l :=
    collapseWs_eq_self hws_o hadj_o
  have s2 : collapseRun '.' (clean_charsW w l) = clean_charsW w l :=
    collapseRun_eq_self hdot_o
  have s3 : collapseRun '!' (clean_charsW w l) = clean_charsW w l :=
    collapseRun_eq_self hbang_o
  have s4 : collapseRun '?' (clean_charsW w l) = clean_charsW w l :=
    collapseRun_eq_self hqm_o
  have s5 : List.filter (isAllowedCharW w) (clean_charsW w l) = clean_charsW w l :=
    List.filter_eq_self.mpr (fun a ha => (List.all_eq_true.mp hall_o) a ha)
  have s6 : pyStrip (clean_charsW w l) = clean_charsW w l :=
    pyStrip_eq_self hhead_o hlast_o
  calc clean_charsW w (clean_charsW w l)
      = pyStrip (collapseWs (List.filter (isAllowedCharW w)
          (collapseRun '?' (collapseRun '!' (collapseRun '.' (collapseWs (clean_charsW w l)))))))
        := rfl
    _ = clean_charsW w l := by rw [s1, s2, s3, s4, s5, s1, s6]

/-! ## Claims C2 and C3: normalization idempotence and run-freedom -/

/-- C2, counterexample.  The claim `clean_text (clean_text s) = clean_text s`
for every string `s` is false: on `".^."` the deletion step removes the `'^'`
and thereby creates the new dot run `".."`, which only a second application
collapses, so `clean_text ".^." = ".."` while
`clean_text (clean_text ".^.") = "."`. -/
theorem C2_clean_text_not_idempotent :
    clean_text (clean_text ".^.") ≠ clean_text ".^." := by decide

/-- C2, amended.  `_clean_text` is idempotent on every input all of whose
characters survive the deletion step (word characters, whitespace, and the
allowed punctuation); only the deletion of a disallowed character can create
a fresh punctuation run and break idempotence.  The statement is quantified
over the word-character classifier `w` of the deletion step, so it holds in
particular for the program's Unicode `\w` classifier; the second conjunct
records that at the executable ASCII classifier the generic pipeline is
exactly the embedded `clean_text`. -/
theorem C2_clean_text_idempotent_on_kept (w : Char → Bool) (s : String)
    (h : s.data.all (isAllowedCharW w) = true) :
    clean_textW w (clean_textW w s) = clean_textW w s
      ∧ clean_textW isWordChar s = clean_text s := by
  refine ⟨?_, rfl⟩
  have : clean_charsW w (clean_charsW w s.data) = clean_charsW w s.data :=
    clean_charsW_idem_of_kept w h
  rw [clean_textW, clean_textW]
  exact congrArg String.mk this

/-- C2, witness for the amended theorem at the ASCII classifier and the
concrete input `"a  b!!"` (where the generic pipeline coincides with
`clean_text`). -/
theorem C2_witness :
    ("a  b!!" : String).data.all (isAllowedCharW isWordChar) = true
      ∧ (clean_textW isWordChar (clean_textW isWordChar "a  b!!")
            = clean_textW isWordChar "a  b!!"
         ∧ clean_textW isWordChar "a  b!!" = clean_text "a  b!!") :=
  ⟨by decide, C2_clean_text_idempotent_on_kept isWordChar "a  b!!" (by decide)⟩

/-- C3, counterexample.  The claim that normalized output never contains a
run of two or more `'?'` is false: `clean_text "?~?" = "??"`, because the
deletion of `'~'` joins the two question marks after the run-collapsing
passes have already finished. -/
theorem C3_run_of_questionmarks_possible :
    noRunOf '?' ((clean_text "?~?").data) = false := by decide

/-- C3, amended.  The whitespace half of the claim does hold: the output of
`_clean_text` never contains two consecutive space characters (the final
whitespace collapse runs after the deletion step, so deletion cannot create
adjacent spaces the way it creates adjacent punctuation). -/
theorem C3_no_adjacent_spaces (s : String) :
    noRunOf ' ' ((clean_text s).data) = true := by
  have hadj : noAdjacentWs (clean_chars s.data) = true := by
    rw [clean_chars]
    exact pyStrip_pairwiseOK (collapseWsAux_noAdjacentWs false _)
  have hmono : ∀ a b : Char,
      (!(isWsChar a && isWsChar b)) = true → (!(a = ' ' && b = ' ')) = true := by
    intro a b hab
    rw [Bool.not_eq_true', Bool.and_eq_false_iff] at hab ⊢
    rcases hab with hab | hab
    · left
      apply decide_eq_false
      intro ha
      rw [ha] at hab
      exact absurd hab (by decide)
    · right
      apply decide_eq_false
      intro hb
      rw [hb] at hab
      exact absurd hab (by decide)
  exact pairwiseOK_mono hmono hadj

/-! ## Claim C1: head+tail truncation in `OpenAIModule.get_summary`
(src/openai_module.py, lines 93-104) -/

/-- The fixed truncation marker inserted between the kept head and tail
(src/openai_module.py line 98). -/
def MARKER : String := "\n\n[ТЕКСТ ОБРЕЗАН ДЛЯ ЭКОНОМИИ ТОКЕНОВ]\n\n"

/-- Python slice `s[:k]` for a nonnegative `k`: the first `min k (len s)`
characters. -/
def pySliceTo (k : Nat) (s : String) : String := String.mk (s.data.take k)

/-- Python slice `s[-k:]` for a nonnegative `k`: the last `min k (len s)`
characters, except that `s[-0:]` is all of `s` (in Python `-0 = 0`). -/
def pySliceFromNeg (k : Nat) (s : String) : String :=
  if k = 0 then s else String.mk (s.data.drop (s.data.length - k))

/-- The truncation step of `OpenAIModule.get_summary` (src/openai_module.py
lines 93-104): if `len(text) > max_text_length`, keep the first and last
`max_text_length // 2` characters joined by the marker; otherwise the text is
unchanged.  The result is the provider payload: `get_summary` interpolates
exactly this string into the user message of every attempt. -/
def truncateText (maxLen : Nat) (text : String) : String :=
  if maxLen < text.length then
    pySliceTo (maxLen / 2) text ++ MARKER ++ pySliceFromNeg (maxLen / 2) text
  else text

theorem string_data_append (s t : String) : (s ++ t).data = s.data ++ t.data := rfl

theorem string_length_data (s : String) : s.length = s.data.length := rfl

theorem string_length_append (s t : String) : (s ++ t).length = s.length + t.length := by
  rw [string_length_data, string_length_data, string_length_data, string_data_append,
    List.length_append]

/-- C1.  For any configured maximum of at least 2: when the text exceeds the
maximum, the provider payload equals `text[:maxLen/2] + MARKER +
text[-maxLen/2:]`, its length is at most the maximum plus the marker length,
and it has the original first `maxLen/2` characters as a prefix and the
original last `maxLen/2` characters as a suffix, verbatim; when the text does
not exceed the maximum it is passed through unchanged; and a text of length
20000 under the default maximum 16000 yields exactly
`text[:8000] + MARKER + text[-8000:]`. -/
theorem C1_truncation (maxLen : Nat) (text : String) (h2 : 2 ≤ maxLen) :
    (maxLen < text.length →
      truncateText maxLen text
          = pySliceTo (maxLen / 2) text ++ MARKER ++ pySliceFromNeg (maxLen / 2) text
        ∧ (truncateText maxLen text).length ≤ maxLen + MARKER.length
        ∧ (pySliceTo (maxLen / 2) text).data <+: (truncateText maxLen text).data
        ∧ (pySliceFromNeg (maxLen / 2) text).data <:+ (truncateText maxLen text).data
        ∧ (pySliceTo (maxLen / 2) text).data = text.data.take (maxLen / 2)
        ∧ (pySliceFromNeg (maxLen / 2) text).data
            = text.data.drop (text.length - maxLen / 2))
    ∧ (text.length ≤ maxLen → truncateText maxLen text = text)
    ∧ (∀ t : String, t.length = 20000 →
        truncateText 16000 t = pySliceTo 8000 t ++ MARKER ++ pySliceFromNeg 8000 t) := by
  have hhalf : maxLen / 2 ≠ 0 := by omega
  refine ⟨?_, ?_, ?_⟩
  · intro hlt
    have heq : truncateText maxLen text
        = pySliceTo (maxLen / 2) text ++ MARKER ++ pySliceFromNeg (maxLen / 2) text := by
      rw [truncateText, if_pos hlt]
    have hklen : maxLen / 2 ≤ text.data.length := by
      rw [string_length_data] at hlt
      omega
    have hto : (pySliceTo (maxLen / 2) text).length = maxLen / 2 := by
      rw [string_length_data, pySliceTo]
      simpa using hklen
    have hfrom : (pySliceFromNeg (maxLen / 2) text).length = maxLen / 2 := by
      rw [pySliceFromNeg, if_neg hhalf, string_length_data]
      simp only [List.length_drop]
      omega
    refine ⟨heq, ?_, ?_, ?_, rfl, ?_⟩
    · rw [heq, string_length_append, string_length_append, hto, hfrom]
      omega
    · rw [heq, string_data_append, string_data_append, List.append_assoc]
      exact List.prefix_append _ _
    · rw [heq, string_data_append]
      exact List.suffix_append _ _
    · rw [pySliceFromNeg, if_neg hhalf]
      rfl
  · intro hle
    rw [truncateText, if_neg (by omega)]
  · intro t ht
    rw [truncateText, if_pos (by omega)]

/-- C1, witness: a concrete instance of the truncation equality. -/
theorem C1_witness :
    truncateText 4 "abcdefgh"
      = pySliceTo 2 "abcdefgh" ++ MARKER ++ pySliceFromNeg 2 "abcdefgh" :=
  ((C1_truncation 4 "abcdefgh" (by decide)).1 (by decide)).1

/-! ## Claims C6 and C7: the bounded retry loop of `OpenAIModule.get_summary`
(src/openai_module.py, lines 106-145) -/

/-- The message of the `ValueError` raised for an empty provider response
(src/openai_module.py line 129). -/
def EMPTY_RESPONSE_ERROR : String := "Получен пустой ответ от API"

/-- The message of the fall-through error after the loop, marked in the
source as unreachable (src/openai_module.py line 145). -/
def LOOP_FALLTHROUGH_ERROR : String := "Неожиданная ошибка в цикле повторных попыток"

/-- The message of the `ValueError` raised for empty input text
(src/openai_module.py line 91). -/
def EMPTY_INPUT_ERROR : String := "Текст для анализа не может быть пустым"

/-- The outcome of one attempt as seen by the retry loop: the provider call
may fail outright, and a response whose `.strip()` is empty is converted into
the empty-response `ValueError`, which the surrounding `except` then treats
like any other failure (src/openai_module.py lines 110-129). -/
def attemptOutcome (provider : Nat → Except String String) (i : Nat) :
    Except String String :=
  match provider i with
  | Except.error e => Except.error e
  | Except.ok raw =>
    if (pyStrip raw.data).isEmpty then Except.error EMPTY_RESPONSE_ERROR
    else Except.ok (String.mk (pyStrip raw.data))

/-- The `for attempt in range(max_retries)` loop of `get_summary`
(src/openai_module.py lines 106-145): a successful attempt returns
immediately; a failed final attempt (`attempt == max_retries - 1`) raises the
terminal error (line 139, an `Exception` whose message embeds the string of
the last recorded error — modelled here as carrying that last error value
itself); any other failed attempt sleeps `retry_delay * (attempt + 1)`
seconds (line 142) and retries.  The second component of the result is the
ordered list of sleep durations performed. -/
def runAttempts (outcome : Nat → Except String String) (maxRetries retryDelay : Nat) :
    List Nat → Except String String × List Nat
  | [] => (Except.error LOOP_FALLTHROUGH_ERROR, [])
  | i :: rest =>
    match outcome i with
    | Except.ok s => (Except.ok s, [])
    | Except.error e =>
      if i = maxRetries - 1 then (Except.error e, [])
      else
        let r := runAttempts outcome maxRetries retryDelay rest
        (r.1, retryDelay * (i + 1) :: r.2)

/-- `OpenAIModule.get_summary` (src/openai_module.py lines 72-145) with the
provider call abstracted as an oracle from (payload, attempt index) to a
response or an error.  The unsupported-model check (lines 87-89) concerns
configuration only and precedes everything modelled here.  Empty input raises
the `ValueError` of line 91; otherwise the truncated payload is fixed once
(lines 93-104) and the retry loop runs over `range(max_retries)`. -/
def get_summary (maxLen maxRetries retryDelay : Nat)
    (provider : String → Nat → Except String String) (text : String) :
    Except String String × List Nat :=
  if (pyStrip text.data).isEmpty then (Except.error EMPTY_INPUT_ERROR, [])
  else
    runAttempts (attemptOutcome (provider (truncateText maxLen text)))
      maxRetries retryDelay (List.range maxRetries)

theorem runAttempts_all_fail (outcome : Nat → Except String String)
    (maxRetries retryDelay : Nat) (err : Nat → String) :
    ∀ (n a : Nat), 1 ≤ n → a + n = maxRetries →
      (∀ i, a ≤ i → i < maxRetries → outcome i = Except.error (err i)) →
      runAttempts outcome maxRetries retryDelay (List.range' a n)
        = (Except.error (err (maxRetries - 1)),
           (List.range' a (n - 1)).map (fun i => retryDelay * (i + 1))) := by
  intro n
  induction n with
  | zero => intro a h0 _ _; omega
  | succ m ih =>
    intro a _ hsum hfail
    have ho : outcome a = Except.error (err a) := hfail a (Nat.le_refl a) (by omega)
    rw [List.range'_succ]
    by_cases hm : m = 0
    · subst hm
      have ha : a = maxRetries - 1 := by omega
      simp only [runAttempts, ho, if_pos ha]
      rw [ha]
      simp
    · have hne : ¬(a = maxRetries - 1) := by omega
      have hrec := ih (a + 1) (by omega) (by omega)
        (fun i hi1 hi2 => hfail i (by omega) hi2)
      simp only [runAttempts, ho, if_neg hne, hrec]
      have hsplit : List.range' a (m + 1 - 1) = a :: List.range' (a + 1) (m - 1) := by
        rw [show m + 1 - 1 = (m - 1) + 1 from by omega, List.range'_succ]
      rw [hsplit]
      simp

/-- C6.  For every non-empty input and every provider behaviour under which
every one of the `maxRetries` attempts fails (an error, or a response that is
empty after stripping), `get_summary` terminates with the error recorded on
the last attempt and performs exactly `maxRetries - 1` backoff sleeps, whose
durations are `retryDelay * (i + 1)` for the zero-based attempt indices
`i = 0, ..., maxRetries - 2`; no sleep follows the final failed attempt. -/
theorem C6_all_attempts_fail (maxLen maxRetries retryDelay : Nat)
    (provider : String → Nat → Except String String) (text : String) (err : Nat → String)
    (hne : (pyStrip text.data).isEmpty = false)
    (hmr : 1 ≤ maxRetries)
    (hfail : ∀ i, i < maxRetries →
      attemptOutcome (provider (truncateText maxLen text)) i = Except.error (err i)) :
    get_summary maxLen maxRetries retryDelay provider text
        = (Except.error (err (maxRetries - 1)),
           (List.range (maxRetries - 1)).map (fun i => retryDelay * (i + 1)))
      ∧ (get_summary maxLen maxRetries retryDelay provider text).2.length
          = maxRetries - 1 := by
  have hmain : get_summary maxLen maxRetries retryDelay provider text
      = (Except.error (err (maxRetries - 1)),
         (List.range (maxRetries - 1)).map (fun i => retryDelay * (i + 1))) := by
    rw [get_summary, if_neg (by simp [hne]), List.range_eq_range']
    rw [runAttempts_all_fail _ maxRetries retryDelay err maxRetries 0 hmr (by omega)
      (fun i _ hi2 => hfail i hi2)]
    rw [List.range_eq_range']
  exact ⟨hmain, by rw [hmain]; simp⟩

/-- C6, witness: three attempts, all failing, one terminal error carrying the
last failure and exactly the two sleeps `1 * 1` and `1 * 2`. -/
theorem C6_witness :
    get_summary 16000 3 1 (fun _ _ => Except.error "boom") "hello"
      = (Except.error "boom", [1, 2]) := by
  have h := (C6_all_attempts_fail 16000 3 1 (fun _ _ => Except.error "boom") "hello"
    (fun _ => "boom") (by decide) (by decide) (fun i _ => rfl)).1
  rw [h]
  rfl

/-- C7.  For every non-empty input and every provider behaviour that fails on
the first two attempts and succeeds on the third (with at least three
attempts configured; the source fixes `max_retries = 3`), `get_summary`
returns the third attempt's result and performs exactly two backoff sleeps,
of durations `retryDelay * (0 + 1)` and `retryDelay * (1 + 1)` — linear
backoff over the zero-based attempt index, hence non-decreasing. -/
theorem C7_success_on_third_attempt (maxLen maxRetries retryDelay : Nat)
    (provider : String → Nat → Except String String) (text : String)
    (e0 e1 s : String)
    (hne : (pyStrip text.data).isEmpty = false)
    (hmr : 3 ≤ maxRetries)
    (h0 : attemptOutcome (provider (truncateText maxLen text)) 0 = Except.error e0)
    (h1 : attemptOutcome (provider (truncateText maxLen text)) 1 = Except.error e1)
    (h2 : attemptOutcome (provider (truncateText maxLen text)) 2 = Except.ok s) :
    get_summary maxLen maxRetries retryDelay provider text
        = (Except.ok s, [retryDelay * (0 + 1), retryDelay * (1 + 1)])
      ∧ retryDelay * (0 + 1) ≤ retryDelay * (1 + 1) := by
  refine ⟨?_, by omega⟩
  rw [get_summary, if_neg (by simp [hne]), List.range_eq_range']
  rw [show maxRetries = ((maxRetries - 3) + 1 + 1) + 1 from by omega]
  rw [List.range'_succ, List.range'_succ, List.range'_succ]
  have hne0 : ¬((0 : Nat) = maxRetries - 1) := by omega
  have hne1 : ¬((1 : Nat) = maxRetries - 1) := by omega
  rw [show maxRetries = ((maxRetries - 3) + 1 + 1) + 1 from by omega] at hne0 hne1
  simp only [runAttempts, h0, h1, h2, if_neg hne0, if_neg hne1]

/-- C7, witness: a provider failing on attempts 0 and 1 and succeeding on
attempt 2 yields the third attempt's result after sleeps `[1, 2]`. -/
theorem C7_witness :
    get_summary 16000 3 1
        (fun _ i => if i < 2 then Except.error "boom" else Except.ok "All good here.")
        "hello"
      = (Except.ok "All good here.", [1, 2]) := by
  have h := (C7_success_on_third_attempt 16000 3 1
    (fun _ i => if i < 2 then Except.error "boom" else Except.ok "All good here.")
    "hello" "boom" "boom" "All good here."
    (by decide) (by decide) rfl rfl rfl).1
  rw [h]

/-! ## Claim C10: `OpenAIModule.validate_summary`
(src/openai_module.py, lines 147-173) -/

/-- Python `str.split(sep)` for the one-character separator `c`: split at
every occurrence, keeping empty pieces (`"".split('.') == ['']`,
`"a.".split('.') == ['a', '']`). -/
def splitOnChar (c : Char) : List Char → List (List Char)
  | [] => [[]]
  | x :: xs =>
    if x = c then [] :: splitOnChar c xs
    else
      match splitOnChar c xs with
      | h :: t => (x :: h) :: t
      | [] => [[x]]

/-- The sentence segments counted by `validate_summary` (line 161):
`[s.strip() for s in summary.split('.') if s.strip()]`. -/
def sentence_segments (summary : String) : List (List Char) :=
  ((splitOnChar '.' summary.data).map pyStrip).filter (fun p => !p.isEmpty)

/-- The approximate sentence count of `validate_summary` (line 162). -/
def sentence_count (summary : String) : Nat := (sentence_segments summary).length

/-- `OpenAIModule.validate_summary` (src/openai_module.py lines 147-173):
reject empty or whitespace-only summaries; reject a sentence count outside
1-5; the character-length check of lines 170-171 only logs a warning and
never affects the returned value. -/
def validate_summary (summary : String) : Bool :=
  if summary.data.isEmpty || (pyStrip summary.data).isEmpty then false
  else if sentence_count summary < 1 ∨ sentence_count summary > 5 then false
  else true

theorem splitOnChar_ne_nil (c : Char) : ∀ (l : List Char), splitOnChar c l ≠ []
  | [] => by simp [splitOnChar]
  | x :: xs => by
    rw [splitOnChar]
    by_cases hx : x = c
    · rw [if_pos hx]; simp
    · rw [if_neg hx]
      cases hr : splitOnChar c xs with
      | nil => simp
      | cons h t => simp

theorem mem_splitOnChar {c : Char} :
    ∀ {l p : List Char}, p ∈ splitOnChar c l → ∀ x ∈ p, x ∈ l
  | [], p, hp => by
    rw [splitOnChar, List.mem_singleton] at hp
    subst hp
    simp
  | y :: ys, p, hp => by
    rw [splitOnChar] at hp
    by_cases hy : y = c
    · rw [if_pos hy] at hp
      rcases List.mem_cons.mp hp with h | h
      · subst h; simp
      · exact fun x hx => List.mem_cons_of_mem _ (mem_splitOnChar h x hx)
    · rw [if_neg hy] at hp
      cases hr : splitOnChar c ys with
      | nil => exact absurd hr (splitOnChar_ne_nil c ys)
      | cons h0 t0 =>
        rw [hr] at hp
        rcases List.mem_cons.mp hp with h | h
        · subst h
          intro x hx
          rcases List.mem_cons.mp hx with h | h
          · subst h; simp
          · exact List.mem_cons_of_mem _
              (mem_splitOnChar (l := ys) (by rw [hr]; simp) x h)
        · exact fun x hx => List.mem_cons_of_mem _
            (mem_splitOnChar (l := ys) (by rw [hr]; simp [h]) x hx)

theorem splitOnChar_of_not_mem {c : Char} :
    ∀ {l : List Char}, c ∉ l → splitOnChar c l = [l]
  | [], _ => rfl
  | x :: xs, h => by
    have hx : ¬(x = c) := fun he => h (by rw [he]; simp)
    have hxs : c ∉ xs := fun hc => h (List.mem_cons_of_mem _ hc)
    rw [splitOnChar, if_neg hx, splitOnChar_of_not_mem hxs]

theorem pyStrip_eq_nil_of_all_ws {l : List Char}
    (h : ∀ c ∈ l, isWsChar c = true) : pyStrip l = [] := by
  rw [pyStrip, List.dropWhile_eq_nil_iff.mpr h]
  simp

theorem all_ws_of_pyStrip_eq_nil {l : List Char}
    (h : pyStrip l = []) : ∀ c ∈ l, isWsChar c = true := by
  rw [pyStrip, List.reverse_eq_nil_iff] at h
  have h3 : ∀ c ∈ (l.dropWhile isWsChar).reverse, isWsChar c = true :=
    List.dropWhile_eq_nil_iff.mp h
  intro c hc
  rw [← List.takeWhile_append_dropWhile isWsChar l] at hc
  rcases List.mem_append.mp hc with h4 | h4
  · exact List.mem_takeWhile_imp h4
  · exact h3 c (List.mem_reverse.mpr h4)

theorem sentence_count_eq_zero_of_ws {s : String}
    (h : (pyStrip s.data).isEmpty = true) : sentence_count s = 0 := by
  have hws : ∀ c ∈ s.data, isWsChar c = true :=
    all_ws_of_pyStrip_eq_nil (List.isEmpty_iff.mp h)
  rw [sentence_count, sentence_segments]
  rw [List.filter_eq_nil_iff.mpr, List.length_nil]
  intro p hp
  rcases List.mem_map.mp hp with ⟨q, hq, hqp⟩
  have : pyStrip q = [] :=
    pyStrip_eq_nil_of_all_ws (fun c hc => hws c (mem_splitOnChar hq c hc))
  rw [← hqp, this]
  simp

/-- C10.  The validator's two checks have different strengths: the returned
value is `true` exactly when the dot-split sentence count lies in 1-5 — the
100-1000 character-length window of lines 170-171 is logged but never
affects the result — and a summary without any `'.'` that is not
whitespace-only always counts as exactly one sentence, regardless of how
many `'!'`- or `'?'`-terminated sentences it contains. -/
theorem C10_validator_strengths (s : String) :
    validate_summary s
        = (decide (1 ≤ sentence_count s) && decide (sentence_count s ≤ 5))
      ∧ ((pyStrip s.data ≠ [] ∧ '.' ∉ s.data) → sentence_count s = 1) := by
  constructor
  · by_cases hs : (pyStrip s.data).isEmpty = true
    · have hcnt : sentence_count s = 0 := sentence_count_eq_zero_of_ws hs
      rw [validate_summary, if_pos (by simp [hs]), hcnt]
      rfl
    · have hdata : s.data.isEmpty = false := by
        cases hd : s.data.isEmpty
        · rfl
        · have : s.data = [] := List.isEmpty_iff.mp hd
          rw [this] at hs
          exact absurd (by rfl) hs
      rw [validate_summary, if_neg (by simp [hs, hdata])]
      by_cases h15 : sentence_count s < 1 ∨ sentence_count s > 5
      · rw [if_pos h15]
        have h1 : ¬(1 ≤ sentence_count s ∧ sentence_count s ≤ 5) := by omega
        rcases Decidable.not_and_iff_or_not.mp h1 with h | h
        · rw [decide_eq_false h]
          simp
        · rw [decide_eq_false h]
          simp
      · rw [if_neg h15]
        have h1 : 1 ≤ sentence_count s := by omega
        have h2 : sentence_count s ≤ 5 := by omega
        rw [decide_eq_true h1, decide_eq_true h2]
        rfl
  · intro ⟨hne, hdot⟩
    rw [sentence_count, sentence_segments, splitOnChar_of_not_mem hdot]
    simp only [List.map_cons, List.map_nil, List.filter]
    rw [show (!(pyStrip s.data).isEmpty) = true by simpa using hne]
    rfl

/-- C10, witness: `"ok"` has one dot-split sentence, violates the 100-1000
length window, and is nevertheless validated. -/
theorem C10_witness :
    validate_summary "ok"
        = (decide (1 ≤ sentence_count "ok") && decide (sentence_count "ok" ≤ 5))
      ∧ sentence_count "ok" = 1 := by
  have h := C10_validator_strengths "ok"
  exact ⟨h.1, h.2 ⟨by decide, by decide⟩⟩

/-! ## The HTML node tree and `PageSummarizer._extract_text`
(src/agent.py, lines 95-176)

BeautifulSoup's parse tree is modelled by `Node`/`NodeList`: an element with
a tag, an attribute list and children, or a text node.  The parsed document
is a `Node` with BeautifulSoup's reserved tag `"[document]"` whose children
are the top-level nodes; that tag matches no selector and no removable kind,
exactly as in BeautifulSoup.  Document order is preorder traversal. -/

mutual

inductive Node where
  | text (s : String) : Node
  | elem (tag : String) (attrs : List (String × String)) (children : NodeList) : Node

inductive NodeList where
  | nil : NodeList
  | cons (hd : Node) (tl : NodeList) : NodeList

end

/-- Build a `NodeList` from a `List Node`. -/
def nodesOf : List Node → NodeList
  | [] => .nil
  | n :: ns => .cons n (nodesOf ns)

mutual

/-- BeautifulSoup `.descendants` of one node: every node strictly below it,
in document order (preorder). -/
def Node.descendants : Node → List Node
  | .text _ => []
  | .elem _ _ cs => NodeList.preorder cs

/-- All nodes of the list and their descendants, in document order. -/
def NodeList.preorder : NodeList → List Node
  | .nil => []
  | .cons c cs => c :: (Node.descendants c ++ NodeList.preorder cs)

end

/-- The noise kinds removed by `_extract_text` (src/agent.py lines 112-114). -/
def removableTags : List String :=
  ["script", "style", "nav", "header", "footer", "aside", "menu", "form", "button", "input"]

/-- A node whose own tag is one of the removable kinds. -/
def isRemovable : Node → Bool
  | .text _ => false
  | .elem t _ _ => removableTags.contains t

mutual

/-- `for element in soup([...]): element.decompose()` (src/agent.py lines
112-114): every element of a removable kind is deleted together with its
subtree, wherever it occurs.  The node this is applied to (the document) is
itself never decomposed. -/
def removeNoise : Node → Node
  | .text s => .text s
  | .elem t a cs => .elem t a (removeNoiseList cs)

/-- Removal inside a child list: removable children are dropped with their
subtrees, the others are cleaned recursively. -/
def removeNoiseList : NodeList → NodeList
  | .nil => .nil
  | .cons c cs =>
    if isRemovable c then removeNoiseList cs
    else .cons (removeNoise c) (removeNoiseList cs)

end

mutual

/-- The text-node strings below a node (the node included if it is text),
in document order. -/
def Node.texts : Node → List String
  | .text s => [s]
  | .elem _ _ cs => NodeList.texts cs

/-- The text-node strings below a node list, in document order. -/
def NodeList.texts : NodeList → List String
  | .nil => []
  | .cons c cs => Node.texts c ++ NodeList.texts cs

end

/-- BeautifulSoup `element.get_text(strip=True)`: each text fragment is
stripped, whitespace-only fragments are dropped, and the rest are joined
with no separator. -/
def getTextStrip (n : Node) : String :=
  String.mk ((((Node.texts n).map (fun s => pyStrip s.data)).filter
    (fun p => !p.isEmpty)).flatten)

/-- The node's tag equals `t`. -/
def tagIs (t : String) : Node → Bool
  | .text _ => false
  | .elem tg _ _ => tg = t

/-- The value of attribute `name`, if present. -/
def attrValue (name : String) : Node → Option String
  | .text _ => none
  | .elem _ attrs _ => (attrs.find? (fun p => p.1 = name)).map (fun p => p.2)

/-- Split on whitespace keeping empty pieces (used for the class attribute's
space-separated token list). -/
def splitOnWsChar : List Char → List (List Char)
  | [] => [[]]
  | x :: xs =>
    if isWsChar x then [] :: splitOnWsChar xs
    else
      match splitOnWsChar xs with
      | h :: t => (x :: h) :: t
      | [] => [[x]]

/-- The whitespace-separated tokens of a class attribute value. -/
def classTokens (v : String) : List (List Char) :=
  (splitOnWsChar v.data).filter (fun p => !p.isEmpty)

/-- The forms of CSS selector used by `_extract_text` (src/agent.py lines
120-130): a tag name, an exact attribute match `[role="main"]`, a class
token `.content`, or an id `#content`. -/
inductive Selector where
  | tagSel (t : String)
  | attrEq (name value : String)
  | classSel (c : String)
  | idSel (i : String)

/-- CSS matching for the selector forms above. -/
def matchesSelector : Selector → Node → Bool
  | .tagSel t, n => tagIs t n
  | .attrEq name value, n => attrValue name n = some value
  | .classSel c, n =>
    match attrValue "class" n with
    | some v => (classTokens v).contains c.data
    | none => false
  | .idSel i, n => attrValue "id" n = some i

/-- The fixed selector priority list of `_extract_text` (src/agent.py lines
120-130). -/
def content_selectors : List Selector :=
  [.tagSel "main", .tagSel "article", .attrEq "role" "main",
   .classSel "content", .classSel "main-content", .classSel "post-content",
   .classSel "entry-content", .idSel "content", .idSel "main"]

/-- `soup.select(selector)`: the matching elements of the document in
document order (the root carries the non-matching tag `"[document]"`). -/
def selectAll (sel : Selector) (soup : Node) : List Node :=
  (soup :: Node.descendants soup).filter (matchesSelector sel)

/-- Main-content selection (src/agent.py lines 116-142): the first selector
with at least one match wins and its first match is the scope root;
otherwise `soup.find('body') or soup`. -/
def selectMain (soup : Node) : Node :=
  match content_selectors.findSome? (fun sel => (selectAll sel soup).head?) with
  | some m => m
  | none =>
    match (soup :: Node.descendants soup).find? (tagIs "body") with
    | some b => b
    | none => soup

/-- `element.find_all(tag)`: the matching descendants of `n` (excluding `n`
itself) in document order. -/
def findAll (t : String) (n : Node) : List Node :=
  (Node.descendants n).filter (tagIs t)

/-- The heading pass tag order (src/agent.py line 148). -/
def headingTags : List String := ["h1", "h2", "h3", "h4", "h5", "h6"]

/-- The body pass tag order (src/agent.py line 156). -/
def bodyTextTags : List String := ["p", "div", "span", "li"]

/-- `if text and len(text) > 3` (src/agent.py line 152). -/
def keepHeading (t : String) : Bool := !t.data.isEmpty && 3 < t.length

/-- `if text and len(text) > 20` (src/agent.py line 160). -/
def keepBody (t : String) : Bool := !t.data.isEmpty && 20 < t.length

/-- One `for tag in [...]: for element in main_content.find_all(tag): ...`
double loop of `_extract_text` (src/agent.py lines 148-161), appending each
qualifying element's stripped text to the accumulator. -/
def harvestPass (tags : List String) (keep : String → Bool) (main : Node)
    (init : List String) : List String :=
  tags.foldl (fun acc tg =>
    (findAll tg main).foldl (fun acc2 el =>
      if keep (getTextStrip el) then acc2 ++ [getTextStrip el] else acc2) acc) init

/-- The `text_elements` list of `_extract_text` (src/agent.py lines 145-161):
the heading pass, then the body pass. -/
def text_elements (main : Node) : List String :=
  harvestPass bodyTextTags keepBody main (harvestPass headingTags keepHeading main [])

/-- `' '.join(text_elements)` (src/agent.py line 164). -/
def joinSpace : List String → String
  | [] => ""
  | [s] => s
  | s :: t :: rest => s ++ " " ++ joinSpace (t :: rest)

/-- The message of the no-usable-text error (src/agent.py line 170). -/
def EXTRACT_ERROR : String := "Не удалось извлечь текстовое содержимое со страницы"

/-- `PageSummarizer._extract_text` (src/agent.py lines 95-176) from the
parsed tree onward: remove noise elements, choose the scope root, harvest
headings then body elements, join with single spaces, normalize, and fail
when nothing non-whitespace remains. -/
def extract_text (soup : Node) : Except String String :=
  if (pyStrip (clean_text (joinSpace (text_elements (selectMain (removeNoise soup))))).data).isEmpty
  then Except.error EXTRACT_ERROR
  else Except.ok (clean_text (joinSpace (text_elements (selectMain (removeNoise soup)))))

/-! ## Claim C4: harvest order -/

theorem harvest_foldl_eq (keep : String → Bool) :
    ∀ (els : List Node) (acc : List String),
      els.foldl (fun acc2 el =>
          if keep (getTextStrip el) then acc2 ++ [getTextStrip el] else acc2) acc
        = acc ++ ((els.map getTextStrip).filter keep)
  | [], acc => by simp
  | e :: es, acc => by
    rw [List.foldl_cons, List.map_cons, List.filter_cons]
    by_cases hk : keep (getTextStrip e) = true
    · rw [if_pos hk, if_pos hk, harvest_foldl_eq keep es (acc ++ [getTextStrip e])]
      simp
    · rw [if_neg hk, if_neg hk, harvest_foldl_eq keep es acc]

theorem harvestPass_eq (keep : String → Bool) (main : Node) :
    ∀ (tags : List String) (init : List String),
      harvestPass tags keep main init
        = init ++ tags.flatMap (fun tg => ((findAll tg main).map getTextStrip).filter keep)
  | [], init => by simp [harvestPass]
  | tg :: tgs, init => by
    rw [harvestPass, List.foldl_cons]
    rw [show ((findAll tg main).foldl (fun acc2 el =>
        if keep (getTextStrip el) then acc2 ++ [getTextStrip el] else acc2) init)
      = init ++ (((findAll tg main).map getTextStrip).filter keep)
      from harvest_foldl_eq keep (findAll tg main) init]
    rw [show (tgs.foldl (fun acc tg2 =>
        (findAll tg2 main).foldl (fun acc2 el =>
          if keep (getTextStrip el) then acc2 ++ [getTextStrip el] else acc2) acc)
        (init ++ (((findAll tg main).map getTextStrip).filter keep)))
      = harvestPass tgs keep main (init ++ (((findAll tg main).map getTextStrip).filter keep))
      from rfl]
    rw [harvestPass_eq keep main tgs]
    rw [List.flatMap_cons, List.append_assoc]

/-- Follows the amended C4 wording: within the scope root, the harvested
fragments are grouped by tag in the fixed order `h1..h6, p, div, span, li`,
each group listing its qualifying elements in document order. -/
def groupedFragments (main : Node) : List String :=
  headingTags.flatMap (fun tg => ((findAll tg main).map getTextStrip).filter keepHeading)
    ++ bodyTextTags.flatMap (fun tg => ((findAll tg main).map getTextStrip).filter keepBody)

/-- The h2 element of the C4 counterexample document. -/
def C4h2 : Node := .elem "h2" [] (nodesOf [.text "Second heading"])

/-- The h1 element of the C4 counterexample document. -/
def C4h1 : Node := .elem "h1" [] (nodesOf [.text "First"])

/-- A document whose body holds an h2 heading before an h1 heading. -/
def C4doc : Node :=
  .elem "[document]" [] (nodesOf [.elem "html" [] (nodesOf
    [.elem "body" [] (nodesOf [C4h2, C4h1])])])

/-- C4, counterexample.  In `C4doc` the qualifying h2 precedes the qualifying
h1 in document order (second conjunct), yet the harvested fragments list the
h1 text first (third conjunct) and the extractor output starts with it
(first conjunct): the heading pass iterates `h1..h6` tag by tag, so headings
are NOT emitted in document order across levels. -/
theorem C4_heading_order_counterexample :
    extract_text C4doc = Except.ok "First Second heading"
      ∧ (Node.descendants (selectMain (removeNoise C4doc))).filter
          (fun n => tagIs "h1" n || tagIs "h2" n) = [C4h2, C4h1]
      ∧ text_elements (selectMain (removeNoise C4doc)) = ["First", "Second heading"]
      ∧ getTextStrip C4h2 = "Second heading" ∧ getTextStrip C4h1 = "First" :=
  ⟨rfl, rfl, rfl, rfl, rfl⟩

/-- C4, amended.  The fragments harvested within the scope root are exactly:
for each tag in the fixed order `h1, h2, h3, h4, h5, h6, p, div, span, li`,
the qualifying elements of that tag in document order.  All qualifying
headings still precede all qualifying body fragments, but two qualifying
headings of different levels appear in level order, not document order. -/
theorem C4_grouped_harvest_order (main : Node) :
    text_elements main = groupedFragments main := by
  rw [text_elements, harvestPass_eq, harvestPass_eq, groupedFragments, List.nil_append]

/-- A document with a qualifying p nested inside a qualifying div. -/
def C9doc : Node :=
  .elem "[document]" [] (nodesOf [.elem "html" [] (nodesOf
    [.elem "body" [] (nodesOf
      [.elem "div" [] (nodesOf
        [.elem "p" [] (nodesOf
          [.text "This paragraph easily exceeds twenty characters"])])])])])

/-- C9.  Extraction can emit the same text twice: in `C9doc` the p element's
text qualifies on its own and again as the enclosing div's text, so the
harvested list holds it twice and the extractor output contains it twice. -/
theorem C9_nested_elements_duplicate_text :
    text_elements (selectMain (removeNoise C9doc))
        = ["This paragraph easily exceeds twenty characters",
           "This paragraph easily exceeds twenty characters"]
      ∧ extract_text C9doc
          = Except.ok ("This paragraph easily exceeds twenty characters"
              ++ " " ++ "This paragraph easily exceeds twenty characters") :=
  ⟨rfl, rfl⟩

/-! ## Claim C5: unconditional noise removal before harvesting -/

theorem isRemovable_removeNoise (n : Node) :
    isRemovable (removeNoise n) = isRemovable n := by
  cases n <;> rfl

mutual

theorem noRemovable_removeNoise : ∀ (n : Node),
    (Node.descendants (removeNoise n)).all (fun m => !isRemovable m) = true
  | .text _ => rfl
  | .elem _ _ cs => noRemovable_removeNoiseList cs

theorem noRemovable_removeNoiseList : ∀ (cs : NodeList),
    (NodeList.preorder (removeNoiseList cs)).all (fun m => !isRemovable m) = true
  | .nil => rfl
  | .cons c cs => by
    by_cases hc : isRemovable c = true
    · rw [removeNoiseList, if_pos hc]
      exact noRemovable_removeNoiseList cs
    · rw [removeNoiseList, if_neg hc, NodeList.preorder]
      simp only [List.all_cons, List.all_append, Bool.and_eq_true]
      refine ⟨?_, noRemovable_removeNoise c, noRemovable_removeNoiseList cs⟩
      rw [isRemovable_removeNoise]
      simpa using hc

end

mutual

/-- Follows the C5 wording: the text contained outside every removable
element — a text node contributes its string only when no removable element
lies on its path. -/
def textsOutsideRemovable : Node → List String
  | .text s => [s]
  | .elem t _ cs =>
    if removableTags.contains t then [] else textsOutsideRemovableList cs

/-- List version of `textsOutsideRemovable`. -/
def textsOutsideRemovableList : NodeList → List String
  | .nil => []
  | .cons c cs => textsOutsideRemovable c ++ textsOutsideRemovableList cs

end

theorem textsOutside_of_removable {c : Node} (hc : isRemovable c = true) :
    textsOutsideRemovable c = [] := by
  cases c with
  | text s => exact absurd hc (by simp [isRemovable])
  | elem t a cs =>
    rw [textsOutsideRemovable, if_pos ?_]
    rw [isRemovable] at hc
    exact hc

mutual

theorem texts_removeNoise : ∀ (n : Node), isRemovable n = false →
    Node.texts (removeNoise n) = textsOutsideRemovable n
  | .text _, _ => rfl
  | .elem t a cs, h => by
    rw [show removeNoise (.elem t a cs) = .elem t a (removeNoiseList cs) from rfl]
    rw [show Node.texts (.elem t a (removeNoiseList cs))
      = NodeList.texts (removeNoiseList cs) from rfl]
    rw [textsOutsideRemovable, if_neg ?_]
    · exact texts_removeNoiseList cs
    · rw [isRemovable] at h
      rw [h]
      simp

theorem texts_removeNoiseList : ∀ (cs : NodeList),
    NodeList.texts (removeNoiseList cs) = textsOutsideRemovableList cs
  | .nil => rfl
  | .cons c cs => by
    by_cases hc : isRemovable c = true
    · rw [removeNoiseList, if_pos hc, textsOutsideRemovableList,
        textsOutside_of_removable hc, List.nil_append]
      exact texts_removeNoiseList cs
    · rw [removeNoiseList, if_neg hc, NodeList.texts, textsOutsideRemovableList]
      rw [texts_removeNoise c (by simpa using hc), texts_removeNoiseList cs]

end

/-- C5.  Applied to the parsed document (whose reserved tag `"[document]"` is
never removable), the removal step of `_extract_text` produces a tree with no
element of a removable kind anywhere in it, and the surviving text nodes are
exactly the ones lying outside every removable element, in document order —
so harvesting, which runs on the cleaned tree, can never see text contained
only in removable elements. -/
theorem C5_noise_removed_before_harvest (soup : Node) (h : isRemovable soup = false) :
    (Node.descendants (removeNoise soup)).all (fun m => !isRemovable m) = true
      ∧ Node.texts (removeNoise soup) = textsOutsideRemovable soup :=
  ⟨noRemovable_removeNoise soup, texts_removeNoise soup h⟩

/-- A document with boilerplate elements surrounding and nested inside the
main content. -/
def C5doc : Node :=
  .elem "[document]" [] (nodesOf [.elem "html" [] (nodesOf
    [.elem "body" [] (nodesOf
      [.elem "nav" [] (nodesOf [.text "menu bar"]),
       .elem "main" [] (nodesOf
         [.elem "script" [] (nodesOf [.text "var x = 1;"]),
          .elem "p" [] (nodesOf [.text "The article body stays in place."]),
          .elem "aside" [] (nodesOf [.elem "p" [] (nodesOf [.text "advert"])])]),
       .elem "footer" [] (nodesOf [.text "copyright"])])])])

/-- C5, witness: on `C5doc` the cleaned tree is boilerplate-free and only the
article text survives. -/
theorem C5_witness :
    ((Node.descendants (removeNoise C5doc)).all (fun m => !isRemovable m) = true
        ∧ Node.texts (removeNoise C5doc) = textsOutsideRemovable C5doc)
      ∧ Node.texts (removeNoise C5doc) = ["The article body stays in place."] :=
  ⟨C5_noise_removed_before_harvest C5doc rfl, rfl⟩

/-! ## Claim C8: validation never mutates or rejects the summary
(`PageSummarizer.summarize_page`, src/agent.py lines 207-243) -/

/-- `PageSummarizer.summarize_page` (src/agent.py lines 207-243) from the
parsed document onward: extract, summarize, then check quality — a failed
`validate_summary` is only logged (lines 234-236) and the summary is
returned to the caller either way. -/
def summarize_page (maxLen maxRetries retryDelay : Nat)
    (provider : String → Nat → Except String String) (soup : Node) :
    Except String String :=
  match extract_text soup with
  | Except.error e => Except.error e
  | Except.ok text =>
    match (get_summary maxLen maxRetries retryDelay provider text).1 with
    | Except.error e => Except.error e
    | Except.ok summary =>
      if validate_summary summary then Except.ok summary else Except.ok summary

/-- C8.  Whenever extraction succeeds and the provider pipeline returns a
summary, `summarize_page` hands exactly that summary to the caller — the
result does not depend on `validate_summary` at all, so a summary that fails
the quality check (sentence count outside 1-5, length outside 100-1000) is
returned unchanged, the violation being logged only. -/
theorem C8_validation_never_rejects (maxLen maxRetries retryDelay : Nat)
    (provider : String → Nat → Except String String) (soup : Node) (text s : String)
    (hex : extract_text soup = Except.ok text)
    (hok : (get_summary maxLen maxRetries retryDelay provider text).1 = Except.ok s) :
    summarize_page maxLen maxRetries retryDelay provider soup = Except.ok s := by
  simp only [summarize_page, hex, hok]
  exact ite_self _

/-- A document holding one qualifying paragraph. -/
def C8doc : Node :=
  .elem "[document]" [] (nodesOf [.elem "html" [] (nodesOf
    [.elem "body" [] (nodesOf
      [.elem "p" [] (nodesOf [.text "This page describes summarize behaviour."])])])])

/-- C8, witness: the provider returns a seven-sentence summary, which fails
validation, yet `summarize_page` returns it verbatim. -/
theorem C8_witness :
    summarize_page 16000 3 1
        (fun _ _ => Except.ok "One. Two. Three. Four. Five. Six. Seven.") C8doc
      = Except.ok "One. Two. Three. Four. Five. Six. Seven."
      ∧ validate_summary "One. Two. Three. Four. Five. Six. Seven." = false := by
  refine ⟨?_, by decide⟩
  exact C8_validation_never_rejects 16000 3 1
    (fun _ _ => Except.ok "One. Two. Three. Four. Five. Six. Seven.") C8doc
    "This page describes summarize behaviour."
    "One. Two. Three. Four. Five. Six. Seven." rfl rfl
